import Mathlib

/-!
Verification of the CodexLens indexing-and-search engine
(`src/codex-lens/src/codex_lens/{models,indexer,search}.py`).

Strings are modelled as `List Char`; machine text operations (`str.split`,
`str.strip`, `str.lower`, substring containment, `fnmatch`) are embedded as
executable Lean functions that mirror the Python semantics used by the code.
Scores (Python floats holding small exact fractions such as `1.0` and
`1/(60+r+1)`) are modelled as rationals.
-/

abbrev Str := List Char

/-- The double-quote character. -/
def dquoteChar : Char := Char.ofNat 34

/-- The single-quote character. -/
def squoteChar : Char := Char.ofNat 39

/-- Python whitespace for `str.split()`, `str.strip()` and regex `\s`
(ASCII range: space, tab, newline, carriage return, vertical tab, form feed). -/
def isPySpace (c : Char) : Bool :=
  c = ' ' || c = Char.ofNat 9 || c = Char.ofNat 10 || c = Char.ofNat 13 ||
  c = Char.ofNat 11 || c = Char.ofNat 12

/-- ASCII lower-casing, as applied by Python `str.lower` and SQLite `LIKE`
on the ASCII inputs the claims range over. -/
def lowerChar (c : Char) : Char :=
  if 'A' ≤ c ∧ c ≤ 'Z' then Char.ofNat (c.toNat + 32) else c

/-- Lower-case a string character-wise (Python `s.lower()` on ASCII text). -/
def strLower (s : Str) : Str := s.map lowerChar

/-- Python `needle in hay` substring containment for strings. -/
def isSubstr (needle hay : Str) : Bool :=
  hay.tails.any (fun t => needle.isPrefixOf t)

/-- Python `content.split(chr(10))`: split on every newline, keeping empty pieces. -/
def splitLines : Str → List Str
  | [] => [[]]
  | c :: rest =>
    if c = Char.ofNat 10 then [] :: splitLines rest
    else
      match splitLines rest with
      | l :: ls => (c :: l) :: ls
      | [] => [[c]]

/-- Python `str.strip()`: remove leading and trailing whitespace. -/
def pyStrip (s : Str) : Str :=
  ((s.dropWhile isPySpace).reverse.dropWhile isPySpace).reverse

/-- Join a list of lines with newline characters (Python `nl.join(lines)`). -/
def joinNl (ls : List Str) : Str := (List.intersperse [Char.ofNat 10] ls).flatten

/-- Join a list of words with single spaces (Python `sp.join(words)`). -/
def joinSpace (ws : List Str) : Str := (List.intersperse [' '] ws).flatten

/-- Worker for `pySplit`: `acc` holds the characters of the current word in
reverse order. -/
def pySplitAux : Str → Str → List Str
  | [], acc => if acc = [] then [] else [acc.reverse]
  | c :: rest, acc =>
    if isPySpace c then
      if acc = [] then pySplitAux rest [] else acc.reverse :: pySplitAux rest []
    else pySplitAux rest (c :: acc)

/-- Python `str.split()` with no argument: split on runs of whitespace,
dropping empty pieces (this also trims leading and trailing whitespace). -/
def pySplit (s : Str) : List Str := pySplitAux s []

/-- Count the newline characters of a string (Python `s.count(chr(10))`). -/
def countNl (s : Str) : Nat := (s.filter (fun c => c = Char.ofNat 10)).length

/-- Result record of `SearchEngine._find_matches` (`search.py` lines 249-253). -/
structure MatchInfo where
  line_number : Nat
  context : Str
  highlights : List Str
deriving DecidableEq

/-- The `lines[start:end]` context slice computed inside `_find_matches`
for a hit at 0-based index `i` with `context_lines = 2`:
`start = max(0, i-2)`, `end = min(len(lines), i+3)`. -/
def contextAt (lines : List Str) (i : Nat) : Str :=
  let start := i - 2
  let stop := min lines.length (i + 3)
  joinNl ((lines.drop start).take (stop - start))

/-- The scan loop of `SearchEngine._find_matches` (`search.py` lines 233-247):
`i` is the 0-based index of the head of `rem` within `lines`; the state is
`(line_number, context, highlights)`. Every hit overwrites `line_number` and
`context`; the loop stops once three highlights are collected. -/
def findMatchesAux (ql : Str) (lines : List Str) :
    Nat → List Str → Nat × Str × List Str → Nat × Str × List Str
  | _, [], st => st
  | i, l :: rest, (ln, ctx, hls) =>
    if isSubstr ql (strLower l) then
      let ln := i + 1
      let ctx := contextAt lines i
      let hls := hls ++ [pyStrip l]
      if 3 ≤ hls.length then (ln, ctx, hls)
      else findMatchesAux ql lines (i + 1) rest (ln, ctx, hls)
    else findMatchesAux ql lines (i + 1) rest (ln, ctx, hls)

/-- Embedding of `SearchEngine._find_matches` (`search.py` lines 219-253): split the content
on newlines, scan for lines containing the query case-insensitively. -/
def findMatches (content query : Str) : MatchInfo :=
  let lines := splitLines content
  let ql := strLower query
  let r := findMatchesAux ql lines 0 lines (0, [], [])
  ⟨r.1, r.2.1, r.2.2⟩

/-- The FTS5 special characters stripped by `_prepare_fts_query`
(`search.py` line 150). -/
def specialChars : List Char :=
  ['*', dquoteChar, squoteChar, '(', ')', '-', '+', ':', '^', '~']

/-- Python `s.replace(c, r)` for a single-character target `c`. -/
def pyReplaceChar : Str → Char → Str → Str
  | [], _, _ => []
  | x :: rest, c, r =>
    if x = c then r ++ pyReplaceChar rest c r else x :: pyReplaceChar rest c r

/-- Python `query.replace(dq, dq+dq)`: double every embedded double-quote
(`search.py` line 155). -/
def doubleQuotes : Str → Str
  | [] => []
  | x :: rest =>
    if x = dquoteChar then dquoteChar :: dquoteChar :: doubleQuotes rest
    else x :: doubleQuotes rest

/-- Inverse of `doubleQuotes`: collapse doubled double-quotes. -/
def undoubleQuotes : Str → Str
  | [] => []
  | [c] => [c]
  | c :: d :: rest =>
    if c = dquoteChar ∧ d = dquoteChar then dquoteChar :: undoubleQuotes rest
    else c :: undoubleQuotes (d :: rest)

/-- Embedding of `SearchEngine._prepare_fts_query` (`search.py` lines 144-166). Note the
branch test is `sp in query` for the literal space character only, followed by
`not query.startswith(dq)`; the else branch strips the special characters and
re-joins the whitespace-split words with single spaces. -/
def prepareFtsQuery (q : Str) : Str :=
  if ' ' ∈ q ∧ q.head? ≠ some dquoteChar then
    dquoteChar :: (doubleQuotes q ++ [dquoteChar])
  else
    let cleaned := specialChars.foldl (fun s c => pyReplaceChar s c [' ']) q
    joinSpace (pySplit cleaned)

/-- The `SearchResult` dataclass (`models.py` lines 37-47); floats are
modelled as rationals. -/
structure SearchResult where
  path : Str
  content : Str
  score : ℚ
  line_number : Nat
  match_context : Str
  search_type : Str
  highlights : List Str
deriving DecidableEq

/-- A row of the `files` table as read by the search planners
(`SELECT path, content, language FROM files`). -/
structure FileRow where
  path : Str
  content : Str
  language : Str
deriving DecidableEq

/-- An `sqlite3.OperationalError`, carrying its message string. -/
structure OpError where
  msg : Str
deriving DecidableEq

/-- The source's discriminator for FTS5 query-syntax errors
(`search.py` line 121): the lower-cased message contains `fts5`. FTS5
query-syntax errors reachable from sanitized queries carry messages of the
form `fts5: syntax error near ...`, so they satisfy this test. -/
def isFts5Error (e : OpError) : Bool :=
  isSubstr ("fts5".toList) (strLower e.msg)

/-- The language/path-filter WHERE clauses shared by the planners:
`language = ?` is exact equality, `path LIKE ?` with pattern wrapped in
percent signs is substring containment (case-insensitive ASCII `LIKE`;
wildcard characters inside the filter itself are not modelled). -/
def rowPassesFilters (lang pf : Option Str) (r : FileRow) : Bool :=
  (match lang with
   | some l => r.language = l
   | none => true) &&
  (match pf with
   | some p => isSubstr (strLower p) (strLower r.path)
   | none => true)

/-- Embedding of `SearchEngine._fallback_search` (`search.py` lines 168-217): substring
(`LIKE` with wrapping percent signs, ASCII case-insensitive) scan over the
`files` table in stored order, truncated to `limit`; every hit gets score 1.0
and `search_type` fulltext. -/
def fallbackSearch (rows : List FileRow) (query : Str) (limit : Nat)
    (lang pf : Option Str) : List SearchResult :=
  let matching := rows.filter (fun r =>
    isSubstr (strLower query) (strLower r.content) && rowPassesFilters lang pf r)
  (matching.take limit).map (fun r =>
    let mi := findMatches r.content query
    ⟨r.path, r.content.take 500, 1, mi.line_number, mi.context,
      ("fulltext".toList), mi.highlights⟩)

/-- A row returned by the FTS5 engine for the sanitized query:
`(path, content, language, bm25_score)`. The engine itself is external to the
repository, so `_fulltext_search` is modelled as parametric in the engine's
outcome (`Except` error or row list). -/
structure FtsRow where
  path : Str
  content : Str
  language : Str
  score : ℚ
deriving DecidableEq

/-- Embedding of `SearchEngine._fulltext_search` (`search.py` lines 70-142), parametric in
the engine outcome for the sanitized query. On success each row becomes a
result with `score = |bm25|` and `search_type` fulltext; on an
`OperationalError` whose message mentions fts5 the fallback planner runs with
the same inputs; any other error propagates. -/
def fulltextSearch (rows : List FileRow) (engine : Except OpError (List FtsRow))
    (query : Str) (limit : Nat) (lang pf : Option Str) :
    Except OpError (List SearchResult) :=
  match engine with
  | Except.ok hits =>
    Except.ok (hits.map (fun h =>
      let mi := findMatches h.content query
      ⟨h.path, h.content.take 500, |h.score|, mi.line_number, mi.context,
        ("fulltext".toList), mi.highlights⟩))
  | Except.error e =>
    if isFts5Error e then Except.ok (fallbackSearch rows query limit lang pf)
    else Except.error e

/-- Look up a path's accumulated score in the RRF score dict (Python
`scores[path]`, modelled as an insertion-ordered association list). -/
def scoreOf : List (Str × ℚ) → Str → ℚ
  | [], _ => 0
  | (q, w) :: rest, p => if q = p then w else scoreOf rest p

/-- Python `scores[path] = scores.get(path, 0) + v` on an insertion-ordered dict:
update in place if present, else append. -/
def updateScore : List (Str × ℚ) → Str → ℚ → List (Str × ℚ)
  | [], p, v => [(p, v)]
  | (q, w) :: rest, p, v =>
    if q = p then (q, w + v) :: rest else (q, w) :: updateScore rest p v

/-- The RRF contribution of a result at 0-based rank `r`:
`1.0 / (k + rank + 1)` with `k = 60` (`search.py` lines 297-308). -/
def rrfVal (rank : Nat) : ℚ := 1 / ((60 : ℚ) + rank + 1)

/-- One planner's loop of the RRF fusion: enumerate the ranked list starting
at `rank`, adding each result's contribution to the score dict. -/
def rrfPass (sc : List (Str × ℚ)) : List SearchResult → Nat → List (Str × ℚ)
  | [], _ => sc
  | r :: rest, rank => rrfPass (updateScore sc r.path (rrfVal rank)) rest (rank + 1)

/-- Python `results_map[path] = result` (overwrite or append), as done in the
full-text loop of `_hybrid_search`. -/
def rmSet : List (Str × SearchResult) → Str → SearchResult →
    List (Str × SearchResult)
  | [], p, r => [(p, r)]
  | (q, s) :: rest, p, r =>
    if q = p then (q, r) :: rest else (q, s) :: rmSet rest p r

/-- Python `if path not in results_map: results_map[path] = result`, as done in the
semantic loop of `_hybrid_search`. -/
def rmSetIfAbsent (rm : List (Str × SearchResult)) (p : Str) (r : SearchResult) :
    List (Str × SearchResult) :=
  if rm.any (fun q => q.1 = p) then rm else rm ++ [(p, r)]

/-- Association-list lookup for the results map. -/
def rmFind : List (Str × SearchResult) → Str → Option SearchResult
  | [], _ => none
  | (q, s) :: rest, p => if q = p then some s else rmFind rest p

/-- The full-text pass over the results map. -/
def rmFtPass (rm : List (Str × SearchResult)) : List SearchResult →
    List (Str × SearchResult)
  | [] => rm
  | r :: rest => rmFtPass (rmSet rm r.path r) rest

/-- The semantic pass over the results map. -/
def rmSemPass (rm : List (Str × SearchResult)) : List SearchResult →
    List (Str × SearchResult)
  | [] => rm
  | r :: rest => rmSemPass (rmSetIfAbsent rm r.path r) rest

/-- Stable insertion of `x` after every element of at least its key, giving
Python's stable descending sort when folded from the left. -/
def insertDesc (key : α → ℚ) (x : α) : List α → List α
  | [] => [x]
  | y :: ys => if key x ≤ key y then y :: insertDesc key x ys else x :: y :: ys

/-- Python's stable `sorted(l, key=key, reverse=True)`. -/
def pySortDesc (key : α → ℚ) (l : List α) : List α :=
  l.foldl (fun acc x => insertDesc key x acc) []

/-- The fused score dict of `_hybrid_search` (`search.py` lines 297-310):
the full-text pass followed by the semantic pass, both enumerating from 0. -/
def hybridScores (ft sem : List SearchResult) : List (Str × ℚ) :=
  rrfPass (rrfPass [] ft 0) sem 0

/-- The surviving result object per path (full-text preferred). -/
def hybridResultsMap (ft sem : List SearchResult) : List (Str × SearchResult) :=
  rmSemPass (rmFtPass [] ft) sem

/-- Python `sorted(scores.keys(), key=lambda p: scores[p], reverse=True)`
(`search.py` line 313): the fused ordering of paths. -/
def hybridOrder (ft sem : List SearchResult) : List Str :=
  pySortDesc (scoreOf (hybridScores ft sem)) ((hybridScores ft sem).map Prod.fst)

/-- Embedding of `SearchEngine._hybrid_search` (`search.py` lines 276-322), parametric in
the two input ranked lists. `ft` is the full-text planner's list (requested
with `limit * 2`); `semOutcome` is `none` when `_semantic_search` raised (the
`except Exception` branch returns `fulltext_results[:limit]`) and `some sem`
when it returned the list `sem`. When the semantic extras are merely not
installed, `_semantic_search` catches the `ImportError` itself and returns
`_fulltext_search(query, limit * 2, ...)`, i.e. `semOutcome = some ft`. -/
def hybridSearch (ft : List SearchResult) (semOutcome : Option (List SearchResult))
    (limit : Nat) : List SearchResult :=
  match semOutcome with
  | none => ft.take limit
  | some sem =>
    let scores := hybridScores ft sem
    let rm := hybridResultsMap ft sem
    ((hybridOrder ft sem).take limit).filterMap (fun p =>
      (rmFind rm p).map (fun r =>
        { r with score := scoreOf scores p, search_type := ("hybrid".toList) }))

/-- The total RRF contribution of one ranked list to a path's fused score,
enumerating from `rank`. -/
def rrfContrib : List SearchResult → Nat → Str → ℚ
  | [], _, _ => 0
  | r :: rest, rank, p =>
    (if r.path = p then rrfVal rank else 0) + rrfContrib rest (rank + 1) p

/-- Predicate `a precedes b in l`: `a` occurs at a strictly smaller index than `b`. -/
def precedes (l : List α) (a b : α) : Prop :=
  ∃ i j : Nat, i < j ∧ l[i]? = some a ∧ l[j]? = some b

/-- Tokens of the regular expressions used by `search_symbol`
(`search.py` lines 342-359): literal text, an alternation of literals,
`\s*`, `\s+`, and a character class. `re.escape(symbol)` makes the symbol a
literal, which is how the symbol is embedded here. -/
inductive PTok where
  | lit : Str → PTok
  | alt : List Str → PTok
  | ws0 : PTok
  | ws1 : PTok
  | oneOf : List Char → PTok
deriving DecidableEq

/-- Match a token list against a prefix of `s`, returning the number of
characters consumed. `\s*`/`\s+` are maximal-munch, which agrees with
Python's backtracking matcher on these patterns because each whitespace
token is followed by a non-whitespace literal, and no alternative of an
alternation is a prefix of another. -/
def matchToks : List PTok → Str → Option Nat
  | [], _ => some 0
  | PTok.lit l :: ts, s =>
    if l.isPrefixOf s then (matchToks ts (s.drop l.length)).map (· + l.length)
    else none
  | PTok.alt as :: ts, s =>
    match as.find? (fun a => a.isPrefixOf s) with
    | some a => (matchToks ts (s.drop a.length)).map (· + a.length)
    | none => none
  | PTok.ws0 :: ts, s =>
    let n := (s.takeWhile isPySpace).length
    (matchToks ts (s.drop n)).map (· + n)
  | PTok.ws1 :: ts, s =>
    let n := (s.takeWhile isPySpace).length
    if n = 0 then none else (matchToks ts (s.drop n)).map (· + n)
  | PTok.oneOf cs :: ts, s =>
    match s with
    | [] => none
    | c :: rest => if cs.contains c then (matchToks ts rest).map (· + 1) else none

/-- Worker for `findIter` with fuel (the fuel is at least the string length,
and each step either consumes at least one character or terminates, matching
`re.finditer`: try a match at each position; on a hit record it and resume
after its end; a match is never zero-length for the patterns used). -/
def findIterGo (toks : List PTok) : Nat → Str → Nat → List (Nat × Str)
  | 0, s, pos =>
    match matchToks toks s with
    | some len => [(pos, s.take len)]
    | none => []
  | fuel + 1, s, pos =>
    match matchToks toks s with
    | some len =>
      if s = [] then [(pos, s.take len)]
      else (pos, s.take len) ::
        findIterGo toks fuel (s.drop (max len 1)) (pos + max len 1)
    | none =>
      match s with
      | [] => []
      | _ :: rest => findIterGo toks fuel rest (pos + 1)

/-- Embedding of `re.finditer(pattern, content)`: the non-overlapping matches, left to
right, as `(start offset, matched text)` pairs. -/
def findIter (toks : List PTok) (s : Str) : List (Nat × Str) :=
  findIterGo toks s.length s 0

/-- The `function` patterns of `search_symbol`. -/
def funcPatterns (symbol : Str) : List (List PTok) :=
  [[PTok.lit ("def".toList), PTok.ws1, PTok.lit symbol, PTok.ws0, PTok.lit ("(".toList)],
   [PTok.lit ("function".toList), PTok.ws1, PTok.lit symbol, PTok.ws0, PTok.lit ("(".toList)],
   [PTok.lit ("func".toList), PTok.ws1, PTok.lit symbol, PTok.ws0, PTok.lit ("(".toList)],
   [PTok.lit ("fn".toList), PTok.ws1, PTok.lit symbol, PTok.ws0, PTok.lit ("(".toList)]]

/-- The `class` patterns of `search_symbol`. -/
def classPatterns (symbol : Str) : List (List PTok) :=
  [[PTok.lit ("class".toList), PTok.ws1, PTok.lit symbol, PTok.ws0, PTok.oneOf [':', '(']],
   [PTok.lit ("struct".toList), PTok.ws1, PTok.lit symbol, PTok.ws0, PTok.lit ("\x7b".toList)],
   [PTok.lit ("interface".toList), PTok.ws1, PTok.lit symbol, PTok.ws0, PTok.lit ("\x7b".toList)]]

/-- The `variable` patterns of `search_symbol`. -/
def varPatterns (symbol : Str) : List (List PTok) :=
  [[PTok.alt (["const".toList, "let".toList, "var".toList]), PTok.ws1,
    PTok.lit symbol, PTok.ws0, PTok.lit ("=".toList)],
   [PTok.lit symbol, PTok.ws0, PTok.lit (":=".toList)],
   [PTok.alt (["let".toList, "const".toList]), PTok.ws1,
    PTok.lit symbol, PTok.ws0, PTok.lit (":".toList)]]

/-- The keys of the `patterns` dict in `search_symbol`. -/
def symbolTypeKeys : List Str :=
  ["function".toList, "class".toList, "variable".toList]

/-- Embedding of `patterns[symbol_type]` for a key of the dict. -/
def patternsFor (symbol : Str) (key : Str) : List (List PTok) :=
  if key = ("function".toList) then funcPatterns symbol
  else if key = ("class".toList) then classPatterns symbol
  else varPatterns symbol

/-- The union of all pattern kinds, in dict insertion order
(`search.py` line 365). -/
def allSymbolPatterns (symbol : Str) : List (List PTok) :=
  funcPatterns symbol ++ classPatterns symbol ++ varPatterns symbol

/-- The `search_patterns` selection of `search_symbol` (`search.py` lines
361-365): `if symbol_type and symbol_type in patterns` — a falsy (empty or
absent) or unknown `symbol_type` selects the union of all patterns. -/
def choosePatterns (symbol : Str) (symbolType : Option Str) : List (List PTok) :=
  match symbolType with
  | none => allSymbolPatterns symbol
  | some t =>
    if t ≠ [] ∧ t ∈ symbolTypeKeys then patternsFor symbol t
    else allSymbolPatterns symbol

/-- The inner pattern loop of `search_symbol`: the first pattern with any
match wins for the file, yielding that pattern's match list. -/
def firstMatch (pats : List (List PTok)) (content : Str) : Option (List (Nat × Str)) :=
  pats.findSome? (fun p =>
    match findIter p content with
    | [] => none
    | m :: ms => some (m :: ms))

/-- Build the `SearchResult` appended by `search_symbol` for a file whose
winning pattern produced matches `ms` (`search.py` lines 379-397): score is
the match count, line number is derived from the first match's offset, the
context window is `lines[max(0, line_number-2) : min(len(lines), line_number+3)]`
(computed from the 1-indexed line number), highlights are the first three
matched texts. -/
def mkSymbolResult (path content : Str) (ms : List (Nat × Str)) : SearchResult :=
  let first := ms.headD (0, [])
  let lineNumber := countNl (content.take first.1) + 1
  let lines := splitLines content
  let start := lineNumber - 2
  let stop := min lines.length (lineNumber + 3)
  let context := joinNl ((lines.drop start).take (stop - start))
  ⟨path, content.take 500, (ms.length : ℚ), lineNumber, context,
    ("symbol".toList), (ms.take 3).map Prod.snd⟩

/-- The row loop of `search_symbol` (`search.py` lines 375-401): one result
per matching file, visiting stored rows in order; after each row, break as
soon as `limit` results have been collected. -/
def symbolScan (pats : List (List PTok)) (limit : Nat) :
    List FileRow → List SearchResult → List SearchResult
  | [], acc => acc
  | r :: rest, acc =>
    let acc2 := match firstMatch pats r.content with
      | some ms => acc ++ [mkSymbolResult r.path r.content ms]
      | none => acc
    if limit ≤ acc2.length then acc2 else symbolScan pats limit rest acc2

/-- Embedding of `SearchEngine.search_symbol` (`search.py` lines 324-405), parametric in
the stored rows: scan rows with early break at `limit` collected results,
then sort by descending score (Python's stable sort) and truncate to `limit`. -/
def searchSymbol (rows : List FileRow) (symbol : Str) (symbolType : Option Str)
    (limit : Nat) : List SearchResult :=
  let pats := choosePatterns symbol symbolType
  (pySortDesc (fun r => r.score) (symbolScan pats limit rows [])).take limit

/-- A row of the `files` table (`indexer.py` lines 54-65). The two wall-clock
timestamp columns (`last_modified`, `indexed_at`) are not modelled: no claim
mentions them and they depend on the ambient clock. -/
structure FileRec where
  id : Nat
  path : Str
  content : Str
  language : Str
  size : Nat
  content_hash : Str
deriving DecidableEq

/-- The statistics blob (`models.py` lines 60-69); `languages` is an
insertion-ordered dict, `last_indexed`/`index_version` are not modelled (the
former is wall-clock, the latter a constant no claim mentions). -/
structure IndexStats where
  total_files : Nat
  total_lines : Nat
  total_size : Nat
  languages : List (Str × Nat)
deriving DecidableEq

/-- The on-disk store: the `files` table, the `files_fts` external-content
mirror as `(rowid, path, content, language)` entries, the autoincrement
counter, and the `index_stats` singleton. -/
structure Store where
  files : List FileRec
  mirror : List (Nat × Str × Str × Str)
  nextId : Nat
  statsKV : Option IndexStats
deriving DecidableEq

/-- A freshly initialized store (`_init_database`). -/
def emptyStore : Store := ⟨[], [], 1, none⟩

/-- The content fingerprint (`models.py` line 25: first 16 hex digits of the
SHA-256 of the content). Modelled as the identity fingerprint: the indexer
relies only on the fingerprint being a deterministic function of the content;
hash collisions of the real digest are not modelled. -/
def contentHash (c : Str) : Str := c

/-- Embedding of `CodeIndexer._save_file` (`indexer.py` lines 193-213):
`INSERT OR REPLACE INTO files ...`. SQLite's REPLACE conflict resolution
deletes the conflicting row (same `path`) and, because `recursive_triggers`
is off by default in `sqlite3`, the `files_ad` AFTER DELETE trigger does NOT
fire for that implicit delete — so the mirror keeps the stale entry. The new
row gets a fresh autoincrement id and the `files_ai` AFTER INSERT trigger
appends its mirror entry. -/
def saveFile (st : Store) (path content language : Str) (size : Nat) : Store :=
  { st with
    files := st.files.filter (fun r => ¬ r.path = path) ++
      [⟨st.nextId, path, content, language, size, contentHash content⟩],
    mirror := st.mirror ++ [(st.nextId, path, content, language)],
    nextId := st.nextId + 1 }

/-- Embedding of `CodeIndexer.remove_file` (`indexer.py` lines 321-327):
`DELETE FROM files WHERE path = ?`; this explicit delete fires `files_ad`,
which removes the mirror entry with the deleted row's rowid. -/
def removeFile (st : Store) (path : Str) : Store :=
  let victims := st.files.filter (fun r => decide (r.path = path))
  { st with
    files := st.files.filter (fun r => ¬ r.path = path),
    mirror := st.mirror.filter (fun m => ¬ victims.any (fun v => decide (v.id = m.1))) }

/-- Embedding of `CodeIndexer.clear_index` (`indexer.py` lines 309-319): deletes all file
rows (firing `files_ad` per row), all remaining mirror entries, and the
statistics. -/
def clearIndex (st : Store) : Store :=
  { st with files := [], mirror := [], statsKV := none }

/-- Embedding of `CodeIndexer._get_file_hash` (`indexer.py` lines 145-155). -/
def getFileHash (st : Store) (path : Str) : Option Str :=
  (st.files.find? (fun r => decide (r.path = path))).map (fun r => r.content_hash)

/-- An eligible file of the scanned tree, as seen by `index_file`: relative
path, decoded content, detected language, byte size. -/
structure FsFile where
  path : Str
  content : Str
  language : Str
  size : Nat
deriving DecidableEq

/-- Python `languages[lang] = languages.get(lang, 0) + 1` on an insertion-ordered
dict (`indexer.py` line 256). -/
def bumpLang : List (Str × Nat) → Str → List (Str × Nat)
  | [], l => [(l, 1)]
  | (k, n) :: rest, l =>
    if k = l then (k, n + 1) :: rest else (k, n) :: bumpLang rest l

/-- Embedding of `CodeIndexer.index_file` (`indexer.py` lines 157-191) for an eligible,
readable file: compare the stored fingerprint with the file's fingerprint;
`none` means the file is unchanged and is skipped. -/
def indexFile (st : Store) (f : FsFile) : Option FsFile :=
  if getFileHash st f.path = some (contentHash f.content) then none else some f

/-- One iteration of the `index_directory` loop (`indexer.py` lines 245-261):
on a changed file, upsert it and accumulate the in-memory statistics
(`total_lines += content.count(nl) + 1`, `total_size += size`, bump the
language counter, and the indexed count that becomes `total_files`). -/
def indexDirStep (acc : Store × IndexStats) (f : FsFile) : Store × IndexStats :=
  match indexFile acc.1 f with
  | some g =>
    (saveFile acc.1 g.path g.content g.language g.size,
     ⟨acc.2.total_files + 1,
      acc.2.total_lines + countNl g.content + 1,
      acc.2.total_size + g.size,
      bumpLang acc.2.languages g.language⟩)
  | none => acc

/-- Embedding of `CodeIndexer.index_directory` (`indexer.py` lines 215-273), parametric in
the scanned tree (the eligible files in scan order): fold the per-file step
starting from empty statistics, then persist the statistics blob and return
it alongside the updated store. -/
def indexDirectory (st : Store) (tree : List FsFile) : Store × IndexStats :=
  let r := tree.foldl indexDirStep (st, ⟨0, 0, 0, []⟩)
  ({ r.1 with statsKV := some r.2 }, r.2)

/-- Embedding of `fnmatch.fnmatch` restricted to the pattern syntax occurring in the
default ignore list (literals and the star wildcard, which matches any
character sequence including slashes; a question mark matches one character;
character classes do not occur in the defaults and are not modelled). -/
def globMatch : Str → Str → Bool
  | [], s => s.isEmpty
  | c :: ps, s =>
    if c = '*' then s.tails.any (fun t => globMatch ps t)
    else if c = '?' then
      match s with
      | [] => false
      | _ :: rest => globMatch ps rest
    else
      match s with
      | [] => false
      | d :: rest => c = d && globMatch ps rest

/-- Embedding of `DEFAULT_IGNORE_PATTERNS` (`models.py` lines 127-156). -/
def defaultIgnorePatterns : List Str :=
  ["node_modules", "__pycache__", ".git", ".svn", ".hg", "venv", ".venv",
   "env", ".env", "dist", "build", "target", ".idea", ".vscode", "*.pyc",
   "*.pyo", "*.class", "*.o", "*.so", "*.dll", "*.exe", "*.min.js",
   "*.min.css", "package-lock.json", "yarn.lock", "pnpm-lock.yaml",
   "Cargo.lock", "*.map"].map String.toList

/-- Join path components with slashes (`str(PurePath)` of a relative path). -/
def joinSlash (comps : List Str) : Str := (List.intersperse ['/'] comps).flatten

/-- The strings of `path.relative_to(root).parents`: every nonempty proper
prefix of the component list minus the file name, longest first, then `.`. -/
def parentStrings (rel : List Str) : List Str :=
  (((List.range rel.dropLast.length).map
    (fun k => joinSlash (rel.dropLast.take (k + 1)))).reverse) ++ [['.']]

/-- Embedding of `CodeIndexer._should_ignore` (`indexer.py` lines 114-131) on the
relative-path components `rel` (last component is the file name): for each
pattern, test the file name as a glob, the full relative path as a glob, and
every ancestor path string both as a glob and for exact equality. -/
def shouldIgnore (patterns : List Str) (rel : List Str) : Bool :=
  patterns.any (fun pat =>
    globMatch pat (rel.getLastD []) || globMatch pat (joinSlash rel) ||
    (parentStrings rel).any (fun par => globMatch pat par || decide (par = pat)))

/-- C1: evaluation of two consecutive `index_directory` calls on the
unchanged one-file tree `hello.py`. The first call returns statistics
`(1 file, 3 lines, 26 bytes, python: 1)`; the second call performs zero
upserts (the store, including its autoincrement counter, is unchanged) but
returns and persists zeroed statistics instead of the first call's values,
because the statistics are recomputed from this pass's upserts only. -/
theorem C1_reindex_zeroes_stats :
    (let tree : List FsFile :=
      [⟨("hello.py".toList), ("def greet():\n    return 0\n".toList),
        ("python".toList), 26⟩]
     let r1 := indexDirectory emptyStore tree
     let r2 := indexDirectory r1.1 tree
     r1.2 = ⟨1, 3, 26, [(("python".toList), 1)]⟩ ∧
     r2.1.nextId = r1.1.nextId ∧
     r2.1.files = r1.1.files ∧
     r2.2 = ⟨0, 0, 0, []⟩ ∧
     r2.1.statsKV = some ⟨0, 0, 0, []⟩) := by decide

/-- C2: evaluation of two `_save_file` upserts of the same path. The files
table holds exactly the new record, but the full-text mirror holds two
entries for the path — the stale one survives because SQLite's REPLACE
conflict resolution deletes the old row without firing the AFTER DELETE
trigger — so the mirror's `(path, content, language)` triples differ from the
table's. -/
theorem C2_upsert_leaves_stale_mirror_row :
    (let st := saveFile
      (saveFile emptyStore ("a.py".toList) ("x".toList) ("python".toList) 1)
      ("a.py".toList) ("y".toList) ("python".toList) 1
     st.files.map (fun r => (r.path, r.content, r.language)) =
       [(("a.py".toList), ("y".toList), ("python".toList))] ∧
     st.mirror.map (fun m => (m.2.1, m.2.2.1, m.2.2.2)) =
       [(("a.py".toList), ("x".toList), ("python".toList)),
        (("a.py".toList), ("y".toList), ("python".toList))] ∧
     (st.mirror.filter (fun m => decide (m.2.1 = ("a.py".toList)))).length = 2) := by
  decide

/-- C4: evaluation of `_find_matches` on a content whose first and sixth
lines contain the query. Line 1 matches (shown by the second and third
conjuncts), yet the function reports line number 6 with the context around
line 6, because every hit overwrites `first_match_line` and `context`; the
highlights are collected correctly. -/
theorem C4_find_matches_reports_last_hit :
    findMatches ("x\nb\nc\nd\ne\nx".toList) ("x".toList) =
      ⟨6, ("d\ne\nx".toList), [("x".toList), ("x".toList)]⟩ ∧
    (splitLines ("x\nb\nc\nd\ne\nx".toList)).getD 0 [] = ("x".toList) ∧
    isSubstr (strLower ("x".toList)) (strLower ("x".toList)) = true := by decide

/-- C3 counterexample: the file `src/node_modules/a.js` has a directory
component equal to the default pattern `node_modules`, at depth 2, yet
`_should_ignore` returns false — the ancestor checks compare whole ancestor
path strings such as `src/node_modules`, never individual components. -/
theorem C3_deep_component_not_ignored :
    shouldIgnore defaultIgnorePatterns
      (["src", "node_modules", "a.js"].map String.toList) = false ∧
    ("node_modules".toList) ∈ (["src", "node_modules", "a.js"].map String.toList) ∧
    ("node_modules".toList) ∈ defaultIgnorePatterns := by decide

/-- C3 (amended): for every default ignore pattern `p`, every file whose
relative path has its FIRST directory component equal to `p` is ignored:
the singleton ancestor prefix is compared with the pattern for exact string
equality. (Components at depth 2 or more need not be ignored, as the
counterexample shows.) -/
theorem C3_leading_component_is_ignored (p : Str) (rest : List Str)
    (hp : p ∈ defaultIgnorePatterns) (hne : rest ≠ []) :
    shouldIgnore defaultIgnorePatterns (p :: rest) = true := by
  have hpar : p ∈ parentStrings (p :: rest) := by
    obtain ⟨b, bs, rfl⟩ := List.exists_cons_of_ne_nil hne
    have hdrop : (p :: b :: bs).dropLast = p :: (b :: bs).dropLast := rfl
    unfold parentStrings
    rw [hdrop]
    apply List.mem_append_left
    rw [List.mem_reverse]
    refine List.mem_map.mpr ⟨0, ?_, ?_⟩
    · simp [List.mem_range]
    · simp [joinSlash]
  have hinner : (parentStrings (p :: rest)).any
      (fun par => globMatch p par || decide (par = p)) = true := by
    rw [List.any_eq_true]
    exact ⟨p, hpar, by simp⟩
  unfold shouldIgnore
  rw [List.any_eq_true]
  refine ⟨p, hp, ?_⟩
  simp [hinner]

/-- C3 witness: the amended theorem applied to `node_modules/x.js` indexed
from the tree root. -/
theorem C3_leading_component_is_ignored_witness :
    ("node_modules".toList) ∈ defaultIgnorePatterns ∧
    ([("x.js".toList)] : List Str) ≠ [] ∧
    shouldIgnore defaultIgnorePatterns
      (("node_modules".toList) :: [("x.js".toList)]) = true :=
  ⟨by decide, by decide,
   C3_leading_component_is_ignored _ _ (by decide) (by decide)⟩

/-- C5 (amended): when the semantic planner raises, `_hybrid_search` returns
exactly the first `limit` full-text results, unchanged. -/
theorem C5_hybrid_throw_returns_fulltext (ft : List SearchResult) (limit : Nat) :
    hybridSearch ft none limit = ft.take limit := rfl

/-- C5 counterexample: when the semantic backend is merely not installed,
`_semantic_search` itself falls back to full-text, so `_hybrid_search` fuses
the full-text list with itself: the single result comes back with the fused
score `2/61` and `search_type` hybrid instead of unchanged. -/
theorem C5_not_installed_result_is_relabeled :
    (let r : SearchResult :=
      ⟨("a.py".toList), ("abc".toList), 5, 1, [], ("fulltext".toList), []⟩
     hybridSearch [r] (some [r]) 1 =
       [{ r with score := rrfVal 0 + rrfVal 0, search_type := ("hybrid".toList) }] ∧
     hybridSearch [r] (some [r]) 1 ≠ [r].take 1) := by
  refine ⟨rfl, ?_⟩
  intro h
  have h2 := congrArg (List.map SearchResult.search_type) h
  have h1 : List.map SearchResult.search_type
      (hybridSearch [(⟨("a.py".toList), ("abc".toList), 5, 1, [],
        ("fulltext".toList), []⟩ : SearchResult)]
       (some [⟨("a.py".toList), ("abc".toList), 5, 1, [], ("fulltext".toList), []⟩]) 1) =
      [("hybrid".toList)] := rfl
  rw [h1] at h2
  simp only [List.take, List.map] at h2
  exact absurd (List.head_eq_of_cons_eq h2) (by decide)

/-- C6 counterexample: with `limit = 1`, the stored file `a.py` (one match of
the winning pattern) is returned even though `b.py` (two matches, hence a
higher score) also matches: the row scan breaks after the first `limit`
matching files in table order, so the result is not the global top-`limit`
by score. -/
theorem C6_first_encountered_beats_higher_score :
    (let rows : List FileRow :=
      [⟨("a.py".toList), ("def f(".toList), ("python".toList)⟩,
       ⟨("b.py".toList), ("def f(\ndef f(".toList), ("python".toList)⟩]
     (searchSymbol rows ("f".toList) (some ("function".toList)) 1).map
        (fun r => (r.path, r.score)) = [(("a.py".toList), 1)] ∧
     (firstMatch (choosePatterns ("f".toList) (some ("function".toList)))
        ("def f(\ndef f(".toList)).map List.length = some 2) := by decide

/-- C8 counterexample: the query `a<TAB>b` contains whitespace and does not
start with a double-quote, so the claim requires the phrase query
`"a<TAB>b"`; but the branch tests only for the space character, so the code
takes the bag-of-words branch and returns `a b`. -/
theorem C8_tab_query_not_phrase :
    prepareFtsQuery (['a', Char.ofNat 9, 'b']) = ['a', ' ', 'b'] ∧
    (['a', Char.ofNat 9, 'b'].any isPySpace) = true ∧
    prepareFtsQuery (['a', Char.ofNat 9, 'b']) ≠
      dquoteChar :: (doubleQuotes (['a', Char.ofNat 9, 'b']) ++ [dquoteChar]) := by
  decide

/-- C10: `search_symbol` with a `symbol_type` outside the pattern table's
keys (e.g. `method`, or the empty string) behaves identically to a call with
no `symbol_type`: it searches the union of all three kinds' patterns and
never errors (the model is total). -/
theorem C10_unknown_symbol_type_is_union (rows : List FileRow) (symbol t : Str)
    (limit : Nat) (h : t ∉ symbolTypeKeys) :
    searchSymbol rows symbol (some t) limit =
      searchSymbol rows symbol none limit := by
  have hsel : choosePatterns symbol (some t) = choosePatterns symbol none := by
    unfold choosePatterns
    have : ¬ (t ≠ [] ∧ t ∈ symbolTypeKeys) := by
      rintro ⟨-, hmem⟩
      exact h hmem
    simp [this]
  unfold searchSymbol
  rw [hsel]

/-- C10 witness: the theorem applied at `symbol_type = "method"`. -/
theorem C10_unknown_symbol_type_witness :
    ("method".toList) ∉ symbolTypeKeys ∧
    searchSymbol [⟨("a.py".toList), ("def f(".toList), ("python".toList)⟩]
        ("f".toList) (some ("method".toList)) 5 =
      searchSymbol [⟨("a.py".toList), ("def f(".toList), ("python".toList)⟩]
        ("f".toList) none 5 :=
  ⟨by decide, C10_unknown_symbol_type_is_union _ _ _ _ (by decide)⟩

theorem scoreOf_updateScore (sc : List (Str × ℚ)) (p : Str) (v : ℚ) (x : Str) :
    scoreOf (updateScore sc p v) x = scoreOf sc x + (if p = x then v else 0) := by
  induction sc with
  | nil =>
    by_cases h : p = x <;> simp [updateScore, scoreOf, h]
  | cons aw rest ih =>
    obtain ⟨a, w⟩ := aw
    by_cases h1 : a = p
    · subst h1
      by_cases h2 : a = x <;> simp [updateScore, scoreOf, h2]
    · by_cases h2 : a = x
      · subst h2
        have hpa : ¬ p = a := fun hc => h1 hc.symm
        simp [updateScore, scoreOf, h1, hpa]
      · simp [updateScore, scoreOf, h1, h2, ih, add_assoc]

theorem scoreOf_rrfPass (l : List SearchResult) (sc : List (Str × ℚ))
    (k : Nat) (p : Str) :
    scoreOf (rrfPass sc l k) p = scoreOf sc p + rrfContrib l k p := by
  induction l generalizing sc k with
  | nil => simp [rrfPass, rrfContrib]
  | cons r rest ih =>
    simp only [rrfPass, rrfContrib]
    rw [ih, scoreOf_updateScore, add_assoc]

theorem rrfContrib_eq_zero (l : List SearchResult) (k : Nat) (p : Str)
    (h : p ∉ l.map (fun r => r.path)) : rrfContrib l k p = 0 := by
  induction l generalizing k with
  | nil => simp [rrfContrib]
  | cons r rest ih =>
    simp only [List.map_cons, List.mem_cons, not_or] at h
    have hne : ¬ r.path = p := fun hc => h.1 hc.symm
    simp [rrfContrib, hne, ih _ h.2]

theorem rrfContrib_of_rank (l : List SearchResult) (i k : Nat) (p : Str)
    (hn : (l.map (fun r => r.path)).Nodup)
    (hi : (l.map (fun r => r.path))[i]? = some p) :
    rrfContrib l k p = rrfVal (k + i) := by
  induction l generalizing i k with
  | nil => simp at hi
  | cons r rest ih =>
    simp only [List.map_cons, List.nodup_cons] at hn
    match i with
    | 0 =>
      simp only [List.map_cons, List.getElem?_cons_zero, Option.some.injEq] at hi
      have hz : rrfContrib rest (k + 1) p = 0 :=
        rrfContrib_eq_zero _ _ _ (hi ▸ hn.1)
      simp [rrfContrib, hi, hz]
    | i + 1 =>
      simp only [List.map_cons, List.getElem?_cons_succ] at hi
      have hmem : p ∈ rest.map (fun r => r.path) := by
        have := List.getElem?_eq_some_iff.mp hi
        obtain ⟨hlen, hget⟩ := this
        exact hget ▸ List.getElem_mem hlen
      have hne : ¬ r.path = p := fun hc => hn.1 (hc ▸ hmem)
      have : rrfContrib rest (k + 1) p = rrfVal (k + 1 + i) := ih _ _ hn.2 hi
      rw [rrfContrib, this, if_neg hne, zero_add]
      congr 1
      omega

theorem rrfVal_strict_anti (i j : Nat) (h : i < j) : rrfVal j < rrfVal i := by
  unfold rrfVal
  have h1 : (0 : ℚ) < 60 + i + 1 := by positivity
  have h2 : (60 : ℚ) + i + 1 < 60 + j + 1 := by
    have : (i : ℚ) < j := by exact_mod_cast h
    linarith
  exact one_div_lt_one_div_of_lt h1 h2

theorem mem_fst_updateScore_self (sc : List (Str × ℚ)) (p : Str) (v : ℚ) :
    p ∈ (updateScore sc p v).map Prod.fst := by
  induction sc with
  | nil => simp [updateScore]
  | cons aw rest ih =>
    obtain ⟨a, w⟩ := aw
    by_cases h : a = p
    · simp [updateScore, h]
    · simp only [updateScore, if_neg h, List.map_cons, List.mem_cons]
      exact Or.inr ih

theorem mem_fst_updateScore_of_mem (sc : List (Str × ℚ)) (p x : Str) (v : ℚ)
    (h : x ∈ sc.map Prod.fst) : x ∈ (updateScore sc p v).map Prod.fst := by
  induction sc with
  | nil => simp at h
  | cons aw rest ih =>
    obtain ⟨a, w⟩ := aw
    simp only [List.map_cons, List.mem_cons] at h
    by_cases hap : a = p
    · rcases h with h | h <;> simp [updateScore, hap, h]
    · rcases h with h | h
      · simp [updateScore, hap, h]
      · simp only [updateScore, if_neg hap, List.map_cons, List.mem_cons]
        exact Or.inr (ih h)

theorem mem_fst_rrfPass_of_mem (l : List SearchResult) (sc : List (Str × ℚ))
    (k : Nat) (x : Str) (h : x ∈ sc.map Prod.fst) :
    x ∈ (rrfPass sc l k).map Prod.fst := by
  induction l generalizing sc k with
  | nil => exact h
  | cons r rest ih =>
    exact ih _ _ (mem_fst_updateScore_of_mem _ _ _ _ h)

theorem mem_fst_rrfPass_of_path (l : List SearchResult) (sc : List (Str × ℚ))
    (k : Nat) (x : Str) (h : x ∈ l.map (fun r => r.path)) :
    x ∈ (rrfPass sc l k).map Prod.fst := by
  induction l generalizing sc k with
  | nil => simp at h
  | cons r rest ih =>
    simp only [List.map_cons, List.mem_cons] at h
    simp only [rrfPass]
    rcases h with h | h
    · refine mem_fst_rrfPass_of_mem rest _ _ _ ?_
      rw [h]
      exact mem_fst_updateScore_self sc r.path (rrfVal k)
    · exact ih _ _ h

theorem mem_insertDesc (key : α → ℚ) (x y : α) (l : List α) :
    y ∈ insertDesc key x l ↔ y = x ∨ y ∈ l := by
  induction l with
  | nil => simp [insertDesc]
  | cons z zs ih =>
    by_cases h : key x ≤ key z
    · simp only [insertDesc, if_pos h, List.mem_cons, ih]
      tauto
    · simp [insertDesc, h]

theorem pairwise_insertDesc (key : α → ℚ) (x : α) (l : List α)
    (h : l.Pairwise (fun a b => key b ≤ key a)) :
    (insertDesc key x l).Pairwise (fun a b => key b ≤ key a) := by
  induction l with
  | nil => simp [insertDesc]
  | cons z zs ih =>
    rw [List.pairwise_cons] at h
    by_cases hle : key x ≤ key z
    · rw [insertDesc, if_pos hle, List.pairwise_cons]
      refine ⟨?_, ih h.2⟩
      intro y hy
      rcases (mem_insertDesc key x y zs).mp hy with rfl | hy
      · exact hle
      · exact h.1 y hy
    · rw [insertDesc, if_neg hle, List.pairwise_cons]
      push_neg at hle
      refine ⟨?_, List.pairwise_cons.mpr h⟩
      intro y hy
      rcases List.mem_cons.mp hy with rfl | hy
      · exact le_of_lt hle
      · exact le_trans (h.1 y hy) (le_of_lt hle)

theorem pairwise_foldl_insertDesc (key : α → ℚ) (l acc : List α)
    (h : acc.Pairwise (fun a b => key b ≤ key a)) :
    (l.foldl (fun acc x => insertDesc key x acc) acc).Pairwise
      (fun a b => key b ≤ key a) := by
  induction l generalizing acc with
  | nil => exact h
  | cons x xs ih => exact ih _ (pairwise_insertDesc key x acc h)

theorem pairwise_pySortDesc (key : α → ℚ) (l : List α) :
    (pySortDesc key l).Pairwise (fun a b => key b ≤ key a) :=
  pairwise_foldl_insertDesc key l [] (by simp)

theorem mem_foldl_insertDesc (key : α → ℚ) (l acc : List α) (y : α) :
    y ∈ l.foldl (fun acc x => insertDesc key x acc) acc ↔ y ∈ acc ∨ y ∈ l := by
  induction l generalizing acc with
  | nil => simp
  | cons x xs ih =>
    simp only [List.foldl_cons, ih, mem_insertDesc, List.mem_cons]
    tauto

theorem mem_pySortDesc (key : α → ℚ) (l : List α) (y : α) :
    y ∈ pySortDesc key l ↔ y ∈ l := by
  unfold pySortDesc
  rw [mem_foldl_insertDesc]
  simp

theorem precedes_of_sorted (key : α → ℚ) (l : List α) (a b : α)
    (hs : l.Pairwise (fun x y => key y ≤ key x))
    (ha : a ∈ l) (hb : b ∈ l) (hlt : key b < key a) : precedes l a b := by
  obtain ⟨i, hi, rfl⟩ := List.getElem_of_mem ha
  obtain ⟨j, hj, rfl⟩ := List.getElem_of_mem hb
  have hpg := List.pairwise_iff_getElem.mp hs
  have hij : i < j := by
    rcases Nat.lt_trichotomy i j with h | h | h
    · exact h
    · subst h
      exact absurd hlt (lt_irrefl _)
    · exact absurd (hpg j i hj hi h) (not_le.mpr hlt)
  exact ⟨i, j, hij, by simp [List.getElem?_eq_getElem, hi],
    by simp [List.getElem?_eq_getElem, hj]⟩

theorem symbolScan_eq_take_filter (pats : List (List PTok)) (limit : Nat) :
    ∀ (rows : List FileRow) (acc : List SearchResult), acc.length < limit →
    symbolScan pats limit rows acc =
      acc ++ ((rows.filter (fun r => (firstMatch pats r.content).isSome)).take
        (limit - acc.length)).map
        (fun r => mkSymbolResult r.path r.content ((firstMatch pats r.content).getD []))
  | [], acc, _ => by simp [symbolScan]
  | r :: rest, acc, h => by
    match hm : firstMatch pats r.content with
    | none =>
      have hnot : ¬ limit ≤ acc.length := Nat.not_le.mpr h
      simp only [symbolScan, hm, hnot, if_false]
      rw [symbolScan_eq_take_filter pats limit rest acc h]
      simp [List.filter_cons, hm]
    | some ms =>
      have hlen : (acc ++ [mkSymbolResult r.path r.content ms]).length = acc.length + 1 := by
        simp
      have hfil : (r :: rest).filter (fun r => (firstMatch pats r.content).isSome) =
          r :: rest.filter (fun r => (firstMatch pats r.content).isSome) := by
        simp [List.filter_cons, hm]
      by_cases hstop : limit ≤ acc.length + 1
      · have hlim : limit = acc.length + 1 := le_antisymm hstop h
        have htake : limit - acc.length = 1 := by omega
        simp only [symbolScan, hm, hlen, hstop, if_true]
        rw [hfil, htake]
        simp [hm]
      · have h2 : (acc ++ [mkSymbolResult r.path r.content ms]).length < limit := by
          omega
        simp only [symbolScan, hm, hlen, hstop, if_false]
        rw [symbolScan_eq_take_filter pats limit rest _ h2]
        rw [hfil]
        have htake : limit - acc.length = (limit - (acc.length + 1)) + 1 := by omega
        rw [htake]
        simp [hm, List.append_assoc]

/-- C6 (amended): `search_symbol` scores each matching file by the match
count of its first matching pattern, but visits stored files in table order
and STOPS as soon as `limit` files have matched; the returned list is those
first `limit` matching files (not the global top-`limit`) sorted by
descending score and truncated to `limit`. The result is always sorted by
descending score. -/
theorem C6_symbol_ranking_over_scanned_prefix (rows : List FileRow)
    (symbol : Str) (symbolType : Option Str) (limit : Nat) (h : 0 < limit) :
    searchSymbol rows symbol symbolType limit =
      (pySortDesc (fun r => r.score)
        (((rows.filter (fun r =>
            (firstMatch (choosePatterns symbol symbolType) r.content).isSome)).take
          limit).map (fun r => mkSymbolResult r.path r.content
            ((firstMatch (choosePatterns symbol symbolType) r.content).getD [])))).take
        limit ∧
    (searchSymbol rows symbol symbolType limit).Pairwise
      (fun a b => b.score ≤ a.score) := by
  have hscan := symbolScan_eq_take_filter (choosePatterns symbol symbolType)
    limit rows [] (by simpa using h)
  have hdef : searchSymbol rows symbol symbolType limit =
      (pySortDesc (fun r => r.score)
        (symbolScan (choosePatterns symbol symbolType) limit rows [])).take limit :=
    rfl
  constructor
  · rw [hdef, hscan]
    simp
  · rw [hdef]
    exact List.Pairwise.sublist (List.take_sublist _ _) (pairwise_pySortDesc _ _)

/-- C6 witness: the amended theorem applied to the two-file store of the
counterexample with `limit = 1`. -/
theorem C6_symbol_ranking_over_scanned_prefix_witness :
    (0 : Nat) < 1 ∧
    (let rows : List FileRow :=
      [⟨("a.py".toList), ("def f(".toList), ("python".toList)⟩,
       ⟨("b.py".toList), ("def f(\ndef f(".toList), ("python".toList)⟩]
     searchSymbol rows ("f".toList) (some ("function".toList)) 1 =
       (pySortDesc (fun r => r.score)
         (((rows.filter (fun r =>
             (firstMatch (choosePatterns ("f".toList) (some ("function".toList)))
               r.content).isSome)).take 1).map
           (fun r => mkSymbolResult r.path r.content
             ((firstMatch (choosePatterns ("f".toList) (some ("function".toList)))
               r.content).getD [])))).take 1 ∧
     (searchSymbol rows ("f".toList) (some ("function".toList)) 1).Pairwise
       (fun a b => b.score ≤ a.score)) :=
  ⟨Nat.zero_lt_one,
   C6_symbol_ranking_over_scanned_prefix _ _ _ 1 Nat.zero_lt_one⟩

/-- C9: RRF monotonicity. If path `A` has a strictly smaller 0-based rank
than path `B` in the full-text list and in the semantic list (each list
mentioning each path once), then `A`'s fused score — the sum of its
`1/(60 + rank + 1)` contributions — strictly exceeds `B`'s, and `A` precedes
`B` in the fused ordering `sorted(scores.keys, key=score, reverse=True)`. -/
theorem C9_rrf_fusion_monotone (ft sem : List SearchResult) (A B : Str)
    (iA iB jA jB : Nat)
    (hfn : (ft.map (fun r => r.path)).Nodup)
    (hsn : (sem.map (fun r => r.path)).Nodup)
    (hA1 : (ft.map (fun r => r.path))[iA]? = some A)
    (hB1 : (ft.map (fun r => r.path))[iB]? = some B)
    (hA2 : (sem.map (fun r => r.path))[jA]? = some A)
    (hB2 : (sem.map (fun r => r.path))[jB]? = some B)
    (hi : iA < iB) (hj : jA < jB) :
    scoreOf (hybridScores ft sem) B < scoreOf (hybridScores ft sem) A ∧
    precedes (hybridOrder ft sem) A B := by
  have hscore : ∀ (p : Str) (i j : Nat),
      (ft.map (fun r => r.path))[i]? = some p →
      (sem.map (fun r => r.path))[j]? = some p →
      scoreOf (hybridScores ft sem) p = rrfVal i + rrfVal j := by
    intro p i j h1 h2
    unfold hybridScores
    rw [scoreOf_rrfPass, scoreOf_rrfPass]
    simp only [scoreOf]
    rw [rrfContrib_of_rank ft i 0 p hfn h1, rrfContrib_of_rank sem j 0 p hsn h2]
    simp
  have hA : scoreOf (hybridScores ft sem) A = rrfVal iA + rrfVal jA :=
    hscore A iA jA hA1 hA2
  have hB : scoreOf (hybridScores ft sem) B = rrfVal iB + rrfVal jB :=
    hscore B iB jB hB1 hB2
  have hlt : scoreOf (hybridScores ft sem) B < scoreOf (hybridScores ft sem) A := by
    rw [hA, hB]
    exact add_lt_add (rrfVal_strict_anti _ _ hi) (rrfVal_strict_anti _ _ hj)
  refine ⟨hlt, ?_⟩
  have hAin : A ∈ (hybridScores ft sem).map Prod.fst := by
    unfold hybridScores
    apply mem_fst_rrfPass_of_mem
    apply mem_fst_rrfPass_of_path
    exact List.getElem?_mem hA1
  have hBin : B ∈ (hybridScores ft sem).map Prod.fst := by
    unfold hybridScores
    apply mem_fst_rrfPass_of_mem
    apply mem_fst_rrfPass_of_path
    exact List.getElem?_mem hB1
  unfold hybridOrder
  exact precedes_of_sorted _ _ _ _ (pairwise_pySortDesc _ _)
    ((mem_pySortDesc _ _ _).mpr hAin) ((mem_pySortDesc _ _ _).mpr hBin) hlt

/-- C9 witness: two concrete two-element ranked lists agreeing that `a.py`
outranks `b.py`. -/
theorem C9_rrf_fusion_monotone_witness :
    (let ra : SearchResult := ⟨("a.py".toList), [], 1, 0, [], ("fulltext".toList), []⟩
     let rb : SearchResult := ⟨("b.py".toList), [], 1, 0, [], ("fulltext".toList), []⟩
     scoreOf (hybridScores [ra, rb] [ra, rb]) ("b.py".toList) <
       scoreOf (hybridScores [ra, rb] [ra, rb]) ("a.py".toList) ∧
     precedes (hybridOrder [ra, rb] [ra, rb]) ("a.py".toList) ("b.py".toList)) := by
  exact C9_rrf_fusion_monotone _ _ _ _ 0 1 0 1
    (by decide) (by decide) (by decide) (by decide) (by decide) (by decide)
    (by decide) (by decide)

/-- C7: for every engine outcome, `_fulltext_search` never surfaces an
FTS5 query-syntax error (identified, as in the source, by `fts5` occurring
in the lower-cased message): on such an error it returns the fallback
substring-search results instead, and every fallback result carries score 1.0
and `search_type` fulltext. -/
theorem C7_syntax_error_takes_fallback (rows : List FileRow) (q : Str)
    (limit : Nat) (lang pf : Option Str) (e : OpError)
    (hsyn : isFts5Error e = true) :
    fulltextSearch rows (Except.error e) q limit lang pf =
      Except.ok (fallbackSearch rows q limit lang pf) ∧
    (∀ r ∈ fallbackSearch rows q limit lang pf,
      r.score = 1 ∧ r.search_type = ("fulltext".toList)) ∧
    (∀ eng e2, fulltextSearch rows eng q limit lang pf = Except.error e2 →
      isFts5Error e2 = false) := by
  refine ⟨?_, ?_, ?_⟩
  · simp [fulltextSearch, hsyn]
  · intro r hr
    unfold fallbackSearch at hr
    simp only [List.mem_map] at hr
    obtain ⟨x, -, rfl⟩ := hr
    exact ⟨rfl, rfl⟩
  · intro eng e2 heq
    match eng with
    | Except.ok hits => simp [fulltextSearch] at heq
    | Except.error e3 =>
      by_cases h3 : isFts5Error e3 = true
      · simp [fulltextSearch, h3] at heq
      · simp only [Bool.not_eq_true] at h3
        simp [fulltextSearch, h3] at heq
        exact heq ▸ h3

/-- C7 witness: the theorem applied to a one-file store and the engine
rejecting the sanitized query with an FTS5 syntax error. -/
theorem C7_syntax_error_takes_fallback_witness :
    isFts5Error ⟨("fts5: syntax error near end of query".toList)⟩ = true ∧
    fulltextSearch [⟨("a.py".toList), ("foo (".toList), ("python".toList)⟩]
        (Except.error ⟨("fts5: syntax error near end of query".toList)⟩)
        ("(".toList) 20 none none =
      Except.ok (fallbackSearch [⟨("a.py".toList), ("foo (".toList), ("python".toList)⟩]
        ("(".toList) 20 none none) :=
  ⟨by decide,
   (C7_syntax_error_takes_fallback _ _ _ _ _ _ (by decide)).1⟩

theorem undoubleQuotes_cons_ne (c : Char) (s : Str) (h : ¬ c = dquoteChar) :
    undoubleQuotes (c :: s) = c :: undoubleQuotes s := by
  cases s with
  | nil => simp [undoubleQuotes]
  | cons d rest => simp [undoubleQuotes, h]

theorem undoubleQuotes_doubleQuotes (q : Str) :
    undoubleQuotes (doubleQuotes q) = q := by
  induction q with
  | nil => simp [doubleQuotes, undoubleQuotes]
  | cons c rest ih =>
    by_cases h : c = dquoteChar
    · subst h
      simp only [doubleQuotes, if_pos rfl, undoubleQuotes, and_self, if_true, ih]
    · simp only [doubleQuotes, if_neg h]
      rw [undoubleQuotes_cons_ne c _ h, ih]

theorem mem_pyReplaceChar (s : Str) (c x : Char)
    (h : x ∈ pyReplaceChar s c [' ']) : (x ∈ s ∧ x ≠ c) ∨ x = ' ' := by
  induction s with
  | nil => simp [pyReplaceChar] at h
  | cons d rest ih =>
    by_cases hd : d = c
    · rw [pyReplaceChar, if_pos hd] at h
      rcases List.mem_append.mp h with h1 | h1
      · right
        simpa using h1
      · rcases ih h1 with ⟨h2, h3⟩ | h4
        · exact Or.inl ⟨List.mem_cons_of_mem _ h2, h3⟩
        · exact Or.inr h4
    · rw [pyReplaceChar, if_neg hd] at h
      rcases List.mem_cons.mp h with rfl | h1
      · exact Or.inl ⟨List.mem_cons_self _ _, hd⟩
      · rcases ih h1 with ⟨h2, h3⟩ | h4
        · exact Or.inl ⟨List.mem_cons_of_mem _ h2, h3⟩
        · exact Or.inr h4

theorem mem_foldl_replace (cs : List Char) (q : Str) (x : Char)
    (h : x ∈ cs.foldl (fun s c => pyReplaceChar s c [' ']) q) :
    x = ' ' ∨ (x ∈ q ∧ x ∉ cs) := by
  induction cs generalizing q with
  | nil =>
    right
    exact ⟨by simpa using h, by simp⟩
  | cons c rest ih =>
    rw [List.foldl_cons] at h
    rcases ih _ h with h1 | ⟨h2, h3⟩
    · exact Or.inl h1
    · rcases mem_pyReplaceChar _ _ _ h2 with ⟨h4, h5⟩ | h6
      · right
        refine ⟨h4, ?_⟩
        intro hmem
        rcases List.mem_cons.mp hmem with rfl | hm
        · exact h5 rfl
        · exact h3 hm
      · exact Or.inl h6

theorem pySplitAux_words (s : Str) :
    ∀ (acc : Str), (∀ c ∈ acc, isPySpace c = false) →
    ∀ w ∈ pySplitAux s acc,
      w ≠ [] ∧ ∀ c ∈ w, isPySpace c = false ∧ (c ∈ s ∨ c ∈ acc) := by
  induction s with
  | nil =>
    intro acc hacc w hw
    by_cases h : acc = []
    · simp [pySplitAux, h] at hw
    · simp only [pySplitAux, if_neg h, List.mem_singleton] at hw
      subst hw
      refine ⟨by simpa using h, ?_⟩
      intro c hc
      rw [List.mem_reverse] at hc
      exact ⟨hacc c hc, Or.inr hc⟩
  | cons d rest ih =>
    intro acc hacc w hw
    by_cases hd : isPySpace d = true
    · rw [pySplitAux, if_pos hd] at hw
      by_cases h : acc = []
      · rw [if_pos h] at hw
        obtain ⟨hne, hch⟩ := ih [] (by simp) w hw
        refine ⟨hne, fun c hc => ⟨(hch c hc).1, ?_⟩⟩
        have := ((hch c hc).2).resolve_right (by simp)
        exact Or.inl (List.mem_cons_of_mem _ this)
      · rw [if_neg h] at hw
        rcases List.mem_cons.mp hw with rfl | hw2
        · refine ⟨by simpa using h, fun c hc => ?_⟩
          rw [List.mem_reverse] at hc
          exact ⟨hacc c hc, Or.inr hc⟩
        · obtain ⟨hne, hch⟩ := ih [] (by simp) w hw2
          refine ⟨hne, fun c hc => ⟨(hch c hc).1, ?_⟩⟩
          have := ((hch c hc).2).resolve_right (by simp)
          exact Or.inl (List.mem_cons_of_mem _ this)
    · rw [pySplitAux, if_neg hd] at hw
      have hacc2 : ∀ c ∈ (d :: acc), isPySpace c = false := by
        intro c hc
        rcases List.mem_cons.mp hc with rfl | hc
        · simpa using hd
        · exact hacc c hc
      obtain ⟨hne, hch⟩ := ih (d :: acc) hacc2 w hw
      refine ⟨hne, fun c hc => ⟨(hch c hc).1, ?_⟩⟩
      rcases (hch c hc).2 with h1 | h1
      · exact Or.inl (List.mem_cons_of_mem _ h1)
      · rcases List.mem_cons.mp h1 with rfl | h1
        · exact Or.inl (List.mem_cons_self _ _)
        · exact Or.inr h1

theorem joinSpace_cons_cons (w v : Str) (ws : List Str) :
    joinSpace (w :: v :: ws) = w ++ ' ' :: joinSpace (v :: ws) := by
  simp [joinSpace, List.intersperse]

theorem mem_joinSpace (ws : List Str) (c : Char) (h : c ∈ joinSpace ws) :
    c = ' ' ∨ ∃ w ∈ ws, c ∈ w := by
  induction ws with
  | nil => simp [joinSpace] at h
  | cons w rest ih =>
    cases rest with
    | nil =>
      right
      exact ⟨w, by simp, by simpa [joinSpace] using h⟩
    | cons v ws2 =>
      rw [joinSpace_cons_cons] at h
      rcases List.mem_append.mp h with h1 | h1
      · right
        exact ⟨w, by simp, h1⟩
      · rcases List.mem_cons.mp h1 with rfl | h2
        · exact Or.inl rfl
        · rcases ih h2 with h3 | ⟨u, hu, hc⟩
          · exact Or.inl h3
          · exact Or.inr ⟨u, List.mem_cons_of_mem _ hu, hc⟩

theorem chain_word (w : Str) (hw : ∀ c ∈ w, isPySpace c = false) :
    List.Chain' (fun a b => ¬(a = ' ' ∧ b = ' ')) w := by
  induction w with
  | nil => simp
  | cons c rest ih =>
    cases rest with
    | nil => simp
    | cons d rest2 =>
      rw [List.chain'_cons]
      refine ⟨?_, ih (fun x hx => hw x (List.mem_cons_of_mem _ hx))⟩
      rintro ⟨h1, -⟩
      have hc := hw c (List.mem_cons_self _ _)
      rw [h1] at hc
      simp [isPySpace] at hc

theorem head_joinSpace_ne_space (ws : List Str)
    (hw : ∀ w ∈ ws, w ≠ [] ∧ ∀ c ∈ w, isPySpace c = false) :
    (joinSpace ws).head? ≠ some ' ' := by
  cases ws with
  | nil => simp [joinSpace]
  | cons w rest =>
    obtain ⟨hne, hch⟩ := hw w (List.mem_cons_self _ _)
    obtain ⟨c, cs, rfl⟩ := List.exists_cons_of_ne_nil hne
    have hc : isPySpace c = false := hch c (List.mem_cons_self _ _)
    have hhead : (joinSpace ((c :: cs) :: rest)).head? = some c := by
      cases rest with
      | nil => simp [joinSpace]
      | cons v ws2 =>
        rw [joinSpace_cons_cons]
        simp
    rw [hhead]
    intro h
    rw [Option.some.injEq] at h
    rw [h] at hc
    simp [isPySpace] at hc

theorem joinSpace_ne_nil (v : Str) (ws : List Str) (hv : v ≠ []) :
    joinSpace (v :: ws) ≠ [] := by
  cases ws with
  | nil => simpa [joinSpace] using hv
  | cons u ws2 =>
    rw [joinSpace_cons_cons]
    simp

theorem getLast_joinSpace_ne_space (ws : List Str)
    (hw : ∀ w ∈ ws, w ≠ [] ∧ ∀ c ∈ w, isPySpace c = false) :
    (joinSpace ws).getLast? ≠ some ' ' := by
  induction ws with
  | nil => simp [joinSpace]
  | cons w rest ih =>
    cases rest with
    | nil =>
      obtain ⟨hne, hch⟩ := hw w (List.mem_cons_self _ _)
      have hj : joinSpace [w] = w := by simp [joinSpace]
      rw [hj]
      intro h
      have hmem : ' ' ∈ w := List.mem_of_mem_getLast? h
      have := hch ' ' hmem
      simp [isPySpace] at this
    | cons v ws2 =>
      have hrest : ∀ u ∈ v :: ws2, u ≠ [] ∧ ∀ c ∈ u, isPySpace c = false :=
        fun u hu => hw u (List.mem_cons_of_mem _ hu)
      have hvne : v ≠ [] := (hrest v (List.mem_cons_self _ _)).1
      have hjne : joinSpace (v :: ws2) ≠ [] := joinSpace_ne_nil v ws2 hvne
      rw [joinSpace_cons_cons]
      rw [List.getLast?_append_of_ne_nil w (by simp)]
      have hsing : (' ' :: joinSpace (v :: ws2)) = [' '] ++ joinSpace (v :: ws2) := by
        simp
      rw [hsing, List.getLast?_append_of_ne_nil [' '] hjne]
      exact ih hrest

theorem chain_joinSpace (ws : List Str)
    (hw : ∀ w ∈ ws, w ≠ [] ∧ ∀ c ∈ w, isPySpace c = false) :
    List.Chain' (fun a b => ¬(a = ' ' ∧ b = ' ')) (joinSpace ws) := by
  induction ws with
  | nil => simp [joinSpace]
  | cons w rest ih =>
    cases rest with
    | nil =>
      have hj : joinSpace [w] = w := by simp [joinSpace]
      rw [hj]
      exact chain_word w (hw w (List.mem_cons_self _ _)).2
    | cons v ws2 =>
      have hrest : ∀ u ∈ v :: ws2, u ≠ [] ∧ ∀ c ∈ u, isPySpace c = false :=
        fun u hu => hw u (List.mem_cons_of_mem _ hu)
      rw [joinSpace_cons_cons]
      rw [List.chain'_append]
      refine ⟨chain_word w (hw w (List.mem_cons_self _ _)).2, ?_, ?_⟩
      · rw [List.chain'_cons']
        refine ⟨?_, ih hrest⟩
        intro y hy
        rintro ⟨-, h2⟩
        exact head_joinSpace_ne_space (v :: ws2) hrest (h2 ▸ hy)
      · intro x hx y hy
        rintro ⟨h1, -⟩
        have hxmem : x ∈ w := List.mem_of_mem_getLast? hx
        have := (hw w (List.mem_cons_self _ _)).2 x hxmem
        rw [h1] at this
        simp [isPySpace] at this

/-- C8 (amended): the branch test is for the SPACE character, not general
whitespace. A query containing a space and not starting with a double-quote
becomes a phrase query: the query wrapped in double quotes with embedded
double-quotes doubled (an invertible quoting, so the phrase body faithfully
carries the query). Every other query takes the bag-of-words branch, whose
output contains none of the ten FTS5 special characters, contains no
whitespace other than single separating spaces, never has two consecutive
spaces, neither starts nor ends with a space, and consists only of characters
of the original query plus separating spaces. -/
theorem C8_sanitizer_policy (q : Str) :
    (' ' ∈ q → q.head? ≠ some dquoteChar →
      prepareFtsQuery q = dquoteChar :: (doubleQuotes q ++ [dquoteChar]) ∧
      undoubleQuotes (doubleQuotes q) = q) ∧
    (¬ (' ' ∈ q ∧ q.head? ≠ some dquoteChar) →
      (∀ c ∈ prepareFtsQuery q, c ∉ specialChars ∧ (isPySpace c = true → c = ' ') ∧
        (c = ' ' ∨ c ∈ q)) ∧
      List.Chain' (fun a b => ¬(a = ' ' ∧ b = ' ')) (prepareFtsQuery q) ∧
      (prepareFtsQuery q).head? ≠ some ' ' ∧
      (prepareFtsQuery q).getLast? ≠ some ' ') := by
  constructor
  · intro h1 h2
    rw [prepareFtsQuery, if_pos ⟨h1, h2⟩]
    exact ⟨rfl, undoubleQuotes_doubleQuotes q⟩
  · intro hn
    have hbranch : prepareFtsQuery q =
        joinSpace (pySplit (specialChars.foldl (fun s c => pyReplaceChar s c [' ']) q)) := by
      rw [prepareFtsQuery, if_neg hn]
    have hwords := pySplitAux_words
      (specialChars.foldl (fun s c => pyReplaceChar s c [' ']) q) [] (by simp)
    have hwords2 : ∀ w ∈ pySplit (specialChars.foldl (fun s c => pyReplaceChar s c [' ']) q),
        w ≠ [] ∧ ∀ c ∈ w, isPySpace c = false := by
      intro w hw
      obtain ⟨hne, hch⟩ := hwords w hw
      exact ⟨hne, fun c hc => (hch c hc).1⟩
    refine ⟨?_, ?_, ?_, ?_⟩
    · intro c hc
      rw [hbranch] at hc
      rcases mem_joinSpace _ _ hc with rfl | ⟨w, hw, hcw⟩
      · exact ⟨by decide, fun _ => rfl, Or.inl rfl⟩
      · obtain ⟨-, hch⟩ := hwords w hw
        have hsp : isPySpace c = false := (hch c hcw).1
        have hcl : c ∈ specialChars.foldl (fun s c => pyReplaceChar s c [' ']) q :=
          ((hch c hcw).2).resolve_right (by simp)
        rcases mem_foldl_replace _ _ _ hcl with rfl | ⟨hq, hns⟩
        · exact ⟨by decide, fun _ => rfl, Or.inl rfl⟩
        · exact ⟨hns, fun hsp2 => absurd hsp2 (by simp [hsp]), Or.inr hq⟩
    · rw [hbranch]
      exact chain_joinSpace _ hwords2
    · rw [hbranch]
      exact head_joinSpace_ne_space _ hwords2
    · rw [hbranch]
      exact getLast_joinSpace_ne_space _ hwords2

/-- C8 witness: the phrase branch applied to `foo bar` and the bag-of-words
branch applied to `a:b`. -/
theorem C8_sanitizer_policy_witness :
    (' ' ∈ ("foo bar".toList) ∧ ("foo bar".toList).head? ≠ some dquoteChar ∧
      prepareFtsQuery ("foo bar".toList) =
        dquoteChar :: (doubleQuotes ("foo bar".toList) ++ [dquoteChar])) ∧
    (¬ (' ' ∈ ("a:b".toList) ∧ ("a:b".toList).head? ≠ some dquoteChar) ∧
      (prepareFtsQuery ("a:b".toList)).head? ≠ some ' ') :=
  ⟨⟨by decide, by decide, ((C8_sanitizer_policy _).1 (by decide) (by decide)).1⟩,
   ⟨by decide, ((C8_sanitizer_policy ("a:b".toList)).2 (by decide)).2.2.1⟩⟩
